import Mathlib

/-!
Shallow embedding of `async-subscription-map` (src/lib.rs).

The crate implements `SubscriptionMap<K, V>`: a mutex-guarded `BTreeMap` from
keys to `SubscriptionEntry<V>` (an `Observable<V>` plus a live-handle counter
`rc`), handed out through refcounted `SubscriptionRef` handles, with a
cursor-style `Keys` iterator.

The ordered map is embedded as an association list with unique keys; the
`BTreeMap::range((Excluded prev, Unbounded)).next()` query used by the `Keys`
iterator is embedded as the minimum of the keys strictly above `prev`.
The mutex is not modelled: every operation is a pure function from map to map,
matching the source's behaviour while the lock is held, and the claims about
states "at rest" are phrased over a sequential transition system `Reachable`.

`Observable<V>` comes from the external crate `async_observable`; it is
modelled from the spec's collaborator interface (section 6 of the spec).
-/

namespace SubMap

/-- Modelled from the spec: the external `Observable<V>` collaborator holds a
current value and a change-notification stream; `log` records the published
changes, most recent first. -/
structure Observable (V : Type) where
  value : V
  log : List V
deriving DecidableEq

/-- Modelled from the spec: `Observable::new(initial_value)`. -/
def Observable.new {V : Type} (v : V) : Observable V :=
  { value := v, log := [] }

/-- Modelled from the spec: `fork()` yields an independent handle sharing the
same underlying value and notification stream. -/
def Observable.fork {V : Type} (o : Observable V) : Observable V := o

/-- Modelled from the spec: `publish_if_changed(new_value) -> bool` publishes
and notifies exactly when the new value differs from the current one. -/
def Observable.publish_if_changed {V : Type} [DecidableEq V] (o : Observable V) (v : V) :
    Bool × Observable V :=
  if v = o.value then (false, o) else (true, { value := v, log := v :: o.log })

/-- Modelled from the spec: `modify(mutator)` mutates the current value in
place and always publishes the result as a change, with no equality check. -/
def Observable.modify {V : Type} (o : Observable V) (f : V → V) : Observable V :=
  { value := f o.value, log := f o.value :: o.log }

/-- `SubscriptionEntry<V>` (src/lib.rs lines 18-25): one observable and its
subscription count `rc`. -/
structure SubscriptionEntry (V : Type) where
  observable : Observable V
  rc : Nat
deriving DecidableEq

/-- `SubscriptionEntry::new` (src/lib.rs lines 31-36): fresh observable,
`rc = 0`. -/
def SubscriptionEntry.new {V : Type} (value : V) : SubscriptionEntry V :=
  { observable := Observable.new value, rc := 0 }

/-- The mutex-guarded `BTreeMap<K, SubscriptionEntry<V>>` inside
`SubscriptionMap` (src/lib.rs line 12), embedded as an association list with
unique keys. -/
abbrev SubscriptionMap (K V : Type) : Type := List (K × SubscriptionEntry V)

variable {K V : Type}

/-- `BTreeMap::get` on the embedded map: the entry stored under `key`. -/
def find? [DecidableEq K] : SubscriptionMap K V → K → Option (SubscriptionEntry V)
  | [], _ => none
  | (k, e) :: rest, key => if key = k then some e else find? rest key

/-- `BTreeMap` insert-or-replace: replaces the entry under `key` if present,
otherwise appends a binding for `key`. -/
def upsert [DecidableEq K] : SubscriptionMap K V → K → SubscriptionEntry V → SubscriptionMap K V
  | [], key, e => [(key, e)]
  | (k, e0) :: rest, key, e =>
    if key = k then (k, e) :: rest else (k, e0) :: upsert rest key e

/-- `BTreeMap::remove` on the embedded map: deletes the binding for `key`. -/
def eraseKey [DecidableEq K] : SubscriptionMap K V → K → SubscriptionMap K V
  | [], _ => []
  | (k, e) :: rest, key => if key = k then rest else (k, e) :: eraseKey rest key

/-- The live-handle counter stored under `key`, 0 when the key is absent. -/
def rcOf [DecidableEq K] (m : SubscriptionMap K V) (key : K) : Nat :=
  match find? m key with
  | some e => e.rc
  | none => 0

/-- Key presence in the map. -/
def containsKey [DecidableEq K] (m : SubscriptionMap K V) (key : K) : Bool :=
  (find? m key).isSome

/-- The keys of the map. -/
def keysOf (m : SubscriptionMap K V) : List K :=
  m.map Prod.fst

/-- The map has no duplicate keys (always true of a `BTreeMap`; maintained by
`upsert` and `eraseKey` from the empty map). -/
def NodupKeys (m : SubscriptionMap K V) : Prop :=
  (keysOf m).Nodup

/-- `SubscriptionRef<K, V>` (src/lib.rs lines 218-226): a handle bound to a
key, holding a fork of the entry's observable. The `owner` back-pointer to the
registry is implicit: the model threads the single registry state explicitly. -/
structure SubscriptionRef (K V : Type) where
  key : K
  observable : Observable V
deriving DecidableEq

/-- `SubscriptionMap::get_or_insert` (src/lib.rs lines 48-56) followed by
`SubscriptionRef::new` (lines 233-245): `map.entry(key).or_insert(new value)`,
then `entry.rc += 1` and a fork of the entry's observable; always succeeds. -/
def get_or_insert [DecidableEq K] (m : SubscriptionMap K V) (key : K) (value : V) :
    SubscriptionMap K V × SubscriptionRef K V :=
  let e0 := match find? m key with
    | some e => e
    | none => SubscriptionEntry.new value
  let e1 := { e0 with rc := e0.rc + 1 }
  (upsert m key e1, { key := key, observable := e1.observable.fork })

/-- Outcome of `SubscriptionMap::remove`: `notFound` is the recoverable
`anyhow` error, `panicked` is the fatal `assert!` on a non-zero refcount,
`ok` carries the updated map. -/
inductive RemoveResult (K V : Type) where
  | notFound : RemoveResult K V
  | panicked : RemoveResult K V
  | ok : SubscriptionMap K V → RemoveResult K V
deriving DecidableEq

/-- `SubscriptionMap::remove` (src/lib.rs lines 67-83): error if the key is
absent, `assert!(entry.rc == 0)` (fatal) if still referenced, otherwise delete
the entry. -/
def remove [DecidableEq K] (m : SubscriptionMap K V) (key : K) : RemoveResult K V :=
  match find? m key with
  | none => RemoveResult.notFound
  | some e => if e.rc = 0 then RemoveResult.ok (eraseKey m key) else RemoveResult.panicked

/-- `Drop for SubscriptionRef` (src/lib.rs lines 275-297): look up the bound
key; if absent, log and return with the map untouched. Otherwise decrement
`rc`; if it reached zero, call `remove` and non-fatally discard its error. -/
def dropRef [DecidableEq K] (m : SubscriptionMap K V) (key : K) : SubscriptionMap K V :=
  match find? m key with
  | none => m
  | some e =>
    let m1 := upsert m key { e with rc := e.rc - 1 }
    if e.rc - 1 = 0 then
      match remove m1 key with
      | RemoveResult.ok m2 => m2
      | _ => m1
    else m1

/-- `SubscriptionMap::publish_if_changed` (src/lib.rs lines 100-107): `none`
models the `anyhow` not-found error; otherwise delegates to the observable's
conditional publish and returns its boolean. -/
def publish_if_changed [DecidableEq K] [DecidableEq V] (m : SubscriptionMap K V) (key : K)
    (v : V) : Option (Bool × SubscriptionMap K V) :=
  match find? m key with
  | none => none
  | some e =>
    let r := e.observable.publish_if_changed v
    some (r.1, upsert m key { e with observable := r.2 })

/-- `SubscriptionMap::modify_and_publish` (src/lib.rs lines 109-123): `none`
models the `anyhow` not-found error; otherwise mutates the entry's observable
in place and always publishes. -/
def modify_and_publish [DecidableEq K] (m : SubscriptionMap K V) (key : K) (f : V → V) :
    Option (SubscriptionMap K V) :=
  match find? m key with
  | none => none
  | some e => some (upsert m key { e with observable := e.observable.modify f })

/-- The `Keys` iterator state (src/lib.rs lines 156-164): the last yielded key
and the sticky exhaustion flag. The shared map is passed to each step. -/
structure Keys (K : Type) where
  previous : Option K
  done : Bool
deriving DecidableEq

/-- `Keys::from` (src/lib.rs lines 171-177): positioned before the first key,
not exhausted. -/
def Keys.start : Keys K :=
  { previous := none, done := false }

/-- The range bound `(Excluded prev, Unbounded)` of `Keys::next`
(src/lib.rs lines 194-197): `none` means unbounded below. -/
def keyAfter [LinearOrder K] (prev : Option K) (k : K) : Bool :=
  match prev with
  | none => true
  | some p => decide (p < k)

/-- `map.range(bounds).next()` of `Keys::next` (src/lib.rs lines 199-204):
the smallest key of the map strictly above `prev` (smallest overall when
`prev = none`). -/
def minKeyAbove [LinearOrder K] : SubscriptionMap K V → Option K → Option K
  | [], _ => none
  | (k, _) :: rest, prev =>
    let r := minKeyAbove rest prev
    if keyAfter prev k then
      match r with
      | none => some k
      | some b => some (min k b)
    else r

/-- `Keys::next` (src/lib.rs lines 187-210): sticky exhaustion, then a range
lookup for the smallest key above `previous`; the found key (or `none`)
becomes `previous`, and `done` is set when nothing was found. -/
def Keys.next [LinearOrder K] (c : Keys K) (m : SubscriptionMap K V) : Option K × Keys K :=
  if c.done then (none, c)
  else
    let key := minKeyAbove m c.previous
    (key, { previous := key, done := key.isNone })

/-- The keys yielded by repeatedly stepping a cursor, one step per element of
`ms` (each step sees the map as mutated between steps). -/
def stepsYield [LinearOrder K] (c : Keys K) : List (SubscriptionMap K V) → List K
  | [] => []
  | m :: ms =>
    match Keys.next c m with
    | (some k, c2) => k :: stepsYield c2 ms
    | (none, c2) => stepsYield c2 ms

/-- Multiplicity of a key among the outstanding handles. -/
def countKey [DecidableEq K] : List K → K → Nat
  | [], _ => 0
  | a :: l, k => (if a = k then 1 else 0) + countKey l k

/-- Removal of one outstanding handle (the dropped one). -/
def removeOne [DecidableEq K] : List K → K → List K
  | [], _ => []
  | a :: l, k => if a = k then l else a :: removeOne l k

/-- A registry state: the map plus the multiset (as a list) of keys of the
outstanding `SubscriptionRef` handles. -/
structure RegState (K V : Type) where
  map : SubscriptionMap K V
  handles : List K

/-- The sequential transition system of the registry: states reachable from
the empty map by the public operations. Failed `publish_if_changed` /
`modify_and_publish` calls and `Keys` steps leave the map unchanged, so they
add no transitions. -/
inductive Reachable [LinearOrder K] [DecidableEq K] [DecidableEq V] : RegState K V → Prop where
  | init : Reachable { map := [], handles := [] }
  | step_get (s : RegState K V) (key : K) (value : V) : Reachable s →
      Reachable { map := (get_or_insert s.map key value).1, handles := key :: s.handles }
  | step_drop (s : RegState K V) (key : K) : Reachable s → 0 < countKey s.handles key →
      Reachable { map := dropRef s.map key, handles := removeOne s.handles key }
  | step_publish (s : RegState K V) (key : K) (v : V) (b : Bool) (m2 : SubscriptionMap K V) :
      Reachable s → publish_if_changed s.map key v = some (b, m2) →
      Reachable { map := m2, handles := s.handles }
  | step_modify (s : RegState K V) (key : K) (f : V → V) (m2 : SubscriptionMap K V) :
      Reachable s → modify_and_publish s.map key f = some m2 →
      Reachable { map := m2, handles := s.handles }

/-- The bookkeeping invariant of the registry: no duplicate keys, every
entry's `rc` counts the outstanding handles for its key, and every present
key has a positive `rc`. -/
def Inv [DecidableEq K] (s : RegState K V) : Prop :=
  NodupKeys s.map ∧
  (∀ k, rcOf s.map k = countKey s.handles k) ∧
  (∀ k, containsKey s.map k = true → 0 < rcOf s.map k)

/-- The map of the spec's key-cursor scenario: keys 0, 1, 2 inserted through
`get_or_insert` on the empty registry. -/
def map012 : SubscriptionMap Nat Nat :=
  (get_or_insert (get_or_insert (get_or_insert [] 0 0).1 1 1).1 2 2).1

/-- `map012` after a further key 10 is inserted (used to show that an
exhausted cursor ignores later insertions). -/
def map012x : SubscriptionMap Nat Nat :=
  (get_or_insert map012 10 10).1

/-- A concrete one-entry map whose entry has one live handle. -/
def exMapRc1 : SubscriptionMap Nat Nat :=
  [(1, { observable := { value := 5, log := [] }, rc := 1 })]

/-- A concrete one-entry map whose entry has no live handle. -/
def exMapRc0 : SubscriptionMap Nat Nat :=
  [(2, { observable := Observable.new 5, rc := 0 })]

section Lemmas

variable [DecidableEq K]

theorem find?_upsert (m : SubscriptionMap K V) (key k : K) (e : SubscriptionEntry V) :
    find? (upsert m key e) k = if k = key then some e else find? m k := by
  induction m with
  | nil => simp [upsert, find?]
  | cons p rest ih =>
    obtain ⟨a, e0⟩ := p
    by_cases hka : key = a
    · subst hka
      by_cases hk : k = key <;> simp [upsert, find?, hk]
    · by_cases hk : k = a
      · subst hk
        have hne : ¬ k = key := fun h => hka (h ▸ rfl)
        simp [upsert, find?, hka, hne]
      · simp [upsert, find?, hka, hk, ih]

theorem containsKey_cons (a : K) (e0 : SubscriptionEntry V) (rest : SubscriptionMap K V)
    (k : K) : containsKey ((a, e0) :: rest) k = if k = a then true else containsKey rest k := by
  by_cases hk : k = a <;> simp [containsKey, find?, hk]

theorem keysOf_upsert (m : SubscriptionMap K V) (key : K) (e : SubscriptionEntry V) :
    keysOf (upsert m key e) =
      if containsKey m key then keysOf m else keysOf m ++ [key] := by
  induction m with
  | nil => simp [upsert, keysOf, containsKey, find?]
  | cons p rest ih =>
    obtain ⟨a, e0⟩ := p
    by_cases hka : key = a
    · simp [upsert, keysOf, hka, containsKey_cons]
    · have hcc : containsKey ((a, e0) :: rest) key = containsKey rest key := by
        simp [containsKey_cons, hka]
      have hup : upsert ((a, e0) :: rest) key e = (a, e0) :: upsert rest key e := by
        simp [upsert, hka]
      rw [hcc, hup]
      by_cases hc : containsKey rest key = true
      · simp only [keysOf, List.map_cons] at ih ⊢
        rw [ih, if_pos hc, if_pos hc]
      · have hc2 : containsKey rest key = false := by simpa using hc
        simp only [keysOf, List.map_cons] at ih ⊢
        rw [ih, hc2]
        simp

theorem find?_ne_none_of_mem (m : SubscriptionMap K V) (k : K) (h : k ∈ keysOf m) :
    find? m k ≠ none := by
  induction m with
  | nil => simp [keysOf] at h
  | cons p rest ih =>
    obtain ⟨a, e0⟩ := p
    by_cases hka : k = a
    · simp [find?, hka]
    · have : k ∈ keysOf rest := by
        rcases (by simpa [keysOf] using h : k = a ∨ k ∈ List.map Prod.fst rest) with hc | hc
        · exact absurd hc hka
        · simpa [keysOf] using hc
      simpa [find?, hka] using ih this

theorem nodupKeys_upsert (m : SubscriptionMap K V) (key : K) (e : SubscriptionEntry V)
    (h : NodupKeys m) : NodupKeys (upsert m key e) := by
  unfold NodupKeys
  rw [keysOf_upsert]
  by_cases hc : containsKey m key = true
  · simpa [hc] using h
  · have hmem : key ∉ keysOf m := by
      intro hk
      have h1 : find? m key = none := by
        cases hf : find? m key with
        | none => rfl
        | some e2 => simp [containsKey, hf] at hc
      exact find?_ne_none_of_mem m key hk h1
    simp [hc]
    exact List.Nodup.append h (List.nodup_singleton key)
      (by simpa [List.disjoint_singleton] using hmem)

theorem keysOf_eraseKey_sublist (m : SubscriptionMap K V) (key : K) :
    (keysOf (eraseKey m key)).Sublist (keysOf m) := by
  induction m with
  | nil => simp [eraseKey, keysOf]
  | cons p rest ih =>
    obtain ⟨a, e0⟩ := p
    by_cases hka : key = a
    · simp [eraseKey, keysOf, hka]
    · simpa [eraseKey, keysOf, hka] using List.Sublist.cons₂ a ih

theorem nodupKeys_eraseKey (m : SubscriptionMap K V) (key : K) (h : NodupKeys m) :
    NodupKeys (eraseKey m key) :=
  List.Nodup.sublist (keysOf_eraseKey_sublist m key) h

theorem find?_eraseKey_ne (m : SubscriptionMap K V) (key k : K) (hk : k ≠ key) :
    find? (eraseKey m key) k = find? m k := by
  induction m with
  | nil => simp [eraseKey]
  | cons p rest ih =>
    obtain ⟨a, e0⟩ := p
    by_cases hka : key = a
    · subst hka
      have : ¬ k = key := hk
      simp [eraseKey, find?, this]
    · by_cases hknd : k = a
      · simp [eraseKey, find?, hka, hknd]
      · simp [eraseKey, find?, hka, hknd, ih]

theorem find?_eq_none_of_not_mem (m : SubscriptionMap K V) (k : K) (h : k ∉ keysOf m) :
    find? m k = none := by
  induction m with
  | nil => simp [find?]
  | cons p rest ih =>
    obtain ⟨a, e0⟩ := p
    have h1 : ¬ k = a := fun hc => h (by simp [keysOf, hc])
    have h2 : k ∉ keysOf rest := fun hc => h (by simp [keysOf]; exact Or.inr (by simpa [keysOf] using hc))
    simp [find?, h1, ih h2]

theorem find?_eraseKey_self (m : SubscriptionMap K V) (key : K) (h : NodupKeys m) :
    find? (eraseKey m key) key = none := by
  induction m with
  | nil => simp [eraseKey, find?]
  | cons p rest ih =>
    obtain ⟨a, e0⟩ := p
    have h1 : a ∉ keysOf rest := by
      have := (by simpa [NodupKeys, keysOf] using h : a ∉ List.map Prod.fst rest ∧ _).1
      simpa [keysOf] using this
    have h2 : NodupKeys rest := by
      have := (by simpa [NodupKeys, keysOf] using h : a ∉ List.map Prod.fst rest ∧ _).2
      simpa [NodupKeys, keysOf] using this
    by_cases hka : key = a
    · subst hka
      simpa [eraseKey] using find?_eq_none_of_not_mem rest key h1
    · simp [eraseKey, find?, hka, Ne.symm, ih h2]

theorem upsert_self (m : SubscriptionMap K V) (key : K) (e : SubscriptionEntry V)
    (h : find? m key = some e) : upsert m key e = m := by
  induction m with
  | nil => simp [find?] at h
  | cons p rest ih =>
    obtain ⟨a, e0⟩ := p
    by_cases hka : key = a
    · subst hka
      have : e = e0 := by simpa [find?] using h.symm
      simp [upsert, this]
    · have : find? rest key = some e := by simpa [find?, hka] using h
      simp [upsert, hka, ih this]

theorem countKey_removeOne_self (l : List K) (k : K) :
    countKey (removeOne l k) k = countKey l k - 1 := by
  induction l with
  | nil => simp [removeOne, countKey]
  | cons a l ih =>
    by_cases hak : a = k
    · simp [removeOne, countKey, hak]
    · simp [removeOne, countKey, hak, ih]

theorem countKey_removeOne_ne (l : List K) (k k2 : K) (h : k2 ≠ k) :
    countKey (removeOne l k) k2 = countKey l k2 := by
  induction l with
  | nil => simp [removeOne]
  | cons a l ih =>
    by_cases hak : a = k
    · subst hak
      have : ¬ a = k2 := fun hc => h (hc ▸ rfl)
      simp [removeOne, countKey, this]
    · simp [removeOne, countKey, hak, ih]

theorem containsKey_of_rcOf_pos (m : SubscriptionMap K V) (k : K) (h : 0 < rcOf m k) :
    containsKey m k = true := by
  unfold rcOf at h
  unfold containsKey
  cases hf : find? m k with
  | none => rw [hf] at h; simp at h
  | some e => simp [hf]

end Lemmas

section CursorLemmas

variable [LinearOrder K]

theorem minKeyAbove_eq_none (m : SubscriptionMap K V) (prev : Option K)
    (h : minKeyAbove m prev = none) : ∀ k2 ∈ keysOf m, keyAfter prev k2 = false := by
  induction m with
  | nil => simp [keysOf]
  | cons p rest ih =>
    obtain ⟨a, e0⟩ := p
    by_cases hA : keyAfter prev a = true
    · exfalso
      cases hr : minKeyAbove rest prev with
      | none => simp [minKeyAbove, hA, hr] at h
      | some b => simp [minKeyAbove, hA, hr] at h
    · have hA2 : keyAfter prev a = false := by simpa using hA
      have hrest : minKeyAbove rest prev = none := by
        simpa [minKeyAbove, hA2] using h
      intro k2 hk2
      rcases (by simpa [keysOf] using hk2 : k2 = a ∨ k2 ∈ List.map Prod.fst rest) with hc | hc
      · exact hc ▸ hA2
      · exact ih hrest k2 (by simpa [keysOf] using hc)

theorem minKeyAbove_mem (m : SubscriptionMap K V) (prev : Option K) (k : K)
    (h : minKeyAbove m prev = some k) : k ∈ keysOf m ∧ keyAfter prev k = true := by
  induction m with
  | nil => simp [minKeyAbove] at h
  | cons p rest ih =>
    obtain ⟨a, e0⟩ := p
    by_cases hA : keyAfter prev a = true
    · cases hr : minKeyAbove rest prev with
      | none =>
        have : a = k := by simpa [minKeyAbove, hA, hr] using h
        subst this
        exact ⟨by simp [keysOf], hA⟩
      | some b =>
        have hk : min a b = k := by simpa [minKeyAbove, hA, hr] using h
        rcases le_total a b with hab | hab
        · have : a = k := by rw [← hk]; exact (min_eq_left hab).symm ▸ rfl
          subst this
          exact ⟨by simp [keysOf], hA⟩
        · have hbk : b = k := by rw [← hk]; exact (min_eq_right hab).symm ▸ rfl
          obtain ⟨hmem, hafter⟩ := ih (hbk ▸ hr)
          exact ⟨by simp [keysOf]; exact Or.inr (by simpa [keysOf] using hmem), hafter⟩
    · have hA2 : keyAfter prev a = false := by simpa using hA
      have hrest : minKeyAbove rest prev = some k := by
        simpa [minKeyAbove, hA2] using h
      obtain ⟨hmem, hafter⟩ := ih hrest
      exact ⟨by simp [keysOf]; exact Or.inr (by simpa [keysOf] using hmem), hafter⟩

theorem minKeyAbove_le (m : SubscriptionMap K V) (prev : Option K) :
    ∀ k : K, minKeyAbove m prev = some k →
    ∀ k2 ∈ keysOf m, keyAfter prev k2 = true → k ≤ k2 := by
  induction m with
  | nil => intro k h; simp [minKeyAbove] at h
  | cons p rest ih =>
    obtain ⟨a, e0⟩ := p
    intro k h k2 hk2 hq
    rcases (by simpa [keysOf] using hk2 : k2 = a ∨ k2 ∈ List.map Prod.fst rest) with hc | hc
    · subst hc
      by_cases hA : keyAfter prev k2 = true
      · cases hr : minKeyAbove rest prev with
        | none =>
          have : k2 = k := by simpa [minKeyAbove, hA, hr] using h
          exact this ▸ le_refl k
        | some b =>
          have hk : min k2 b = k := by simpa [minKeyAbove, hA, hr] using h
          rw [← hk]
          exact min_le_left k2 b
      · exact absurd hq hA
    · by_cases hA : keyAfter prev a = true
      · cases hr : minKeyAbove rest prev with
        | none =>
          exfalso
          have := minKeyAbove_eq_none rest prev hr k2 (by simpa [keysOf] using hc)
          rw [hq] at this
          exact Bool.true_eq_false.mp this
        | some b =>
          have hk : min a b = k := by simpa [minKeyAbove, hA, hr] using h
          have : b ≤ k2 := ih b hr k2 (by simpa [keysOf] using hc) hq
          calc k = min a b := hk.symm
            _ ≤ b := min_le_right a b
            _ ≤ k2 := this
      · have hA2 : keyAfter prev a = false := by simpa using hA
        have hrest : minKeyAbove rest prev = some k := by
          simpa [minKeyAbove, hA2] using h
        exact ih k hrest k2 (by simpa [keysOf] using hc) hq

theorem next_of_done (c : Keys K) (m : SubscriptionMap K V) (h : c.done = true) :
    Keys.next c m = (none, c) := by
  simp [Keys.next, h]

theorem next_none_done (c : Keys K) (m : SubscriptionMap K V) (c2 : Keys K)
    (h : Keys.next c m = (none, c2)) : c2.done = true := by
  by_cases hd : c.done = true
  · rw [next_of_done c m hd] at h
    exact (Prod.mk.injEq _ _ _ _ ▸ h).2 ▸ hd
  · have hd2 : c.done = false := by simpa using hd
    cases hmin : minKeyAbove m c.previous with
    | none =>
      have : c2 = { previous := none, done := true } := by
        simpa [Keys.next, hd2, hmin] using h.symm
      simp [this]
    | some k => simp [Keys.next, hd2, hmin] at h

theorem next_some (c : Keys K) (m : SubscriptionMap K V) (k : K) (c2 : Keys K)
    (h : Keys.next c m = (some k, c2)) :
    c.done = false ∧ minKeyAbove m c.previous = some k ∧
      c2 = { previous := some k, done := false } := by
  by_cases hd : c.done = true
  · rw [next_of_done c m hd] at h
    exact absurd (Prod.mk.injEq _ _ _ _ ▸ h).1 (by simp)
  · have hd2 : c.done = false := by simpa using hd
    cases hmin : minKeyAbove m c.previous with
    | none => simp [Keys.next, hd2, hmin] at h
    | some k2 =>
      have hpair : (some k2, ({ previous := some k2, done := false } : Keys K)) = (some k, c2) := by
        simpa [Keys.next, hd2, hmin] using h
      have hk : k2 = k := by simpa using congrArg Prod.fst hpair
      subst hk
      have hc2 : c2 = { previous := some k2, done := false } := by
        simpa using (congrArg Prod.snd hpair).symm
      exact ⟨hd2, rfl, hc2⟩

theorem stepsYield_of_done (ms : List (SubscriptionMap K V)) : ∀ c : Keys K, c.done = true →
    stepsYield c ms = [] := by
  induction ms with
  | nil => intro c h; rfl
  | cons m ms ih =>
    intro c h
    have : Keys.next c m = (none, c) := next_of_done c m h
    simp [stepsYield, this, ih c h]

theorem stepsYield_gt (ms : List (SubscriptionMap K V)) : ∀ (c : Keys K) (p : K),
    c.previous = some p → ∀ x ∈ stepsYield c ms, p < x := by
  induction ms with
  | nil => intro c p hp x hx; simp [stepsYield] at hx
  | cons m ms ih =>
    intro c p hp x hx
    rcases hstep : Keys.next c m with ⟨r, c2⟩
    cases r with
    | none =>
      rw [show stepsYield c (m :: ms) = stepsYield c2 ms by simp [stepsYield, hstep]] at hx
      rw [stepsYield_of_done ms c2 (next_none_done c m c2 hstep)] at hx
      simp at hx
    | some k =>
      obtain ⟨hd, hmin, hc2⟩ := next_some c m k c2 hstep
      have hpk : p < k := by
        have := (minKeyAbove_mem m c.previous k hmin).2
        rw [hp] at this
        simpa [keyAfter] using this
      rw [show stepsYield c (m :: ms) = k :: stepsYield c2 ms by simp [stepsYield, hstep]] at hx
      rcases List.mem_cons.mp hx with hx | hx
      · exact hx ▸ hpk
      · have : k < x := ih c2 k (by simp [hc2]) x hx
        exact lt_trans hpk this

theorem stepsYield_sorted (ms : List (SubscriptionMap K V)) : ∀ c : Keys K,
    List.Pairwise (fun a b => a < b) (stepsYield c ms) := by
  induction ms with
  | nil => intro c; simp [stepsYield]
  | cons m ms ih =>
    intro c
    rcases hstep : Keys.next c m with ⟨r, c2⟩
    cases r with
    | none =>
      rw [show stepsYield c (m :: ms) = stepsYield c2 ms by simp [stepsYield, hstep]]
      exact ih c2
    | some k =>
      obtain ⟨hd, hmin, hc2⟩ := next_some c m k c2 hstep
      rw [show stepsYield c (m :: ms) = k :: stepsYield c2 ms by simp [stepsYield, hstep]]
      exact List.pairwise_cons.mpr
        ⟨fun x hx => stepsYield_gt ms c2 k (by simp [hc2]) x hx, ih c2⟩

end CursorLemmas

section InvariantLemmas

variable [DecidableEq K]

theorem get_or_insert_fst_some (m : SubscriptionMap K V) (key : K) (value : V)
    (e : SubscriptionEntry V) (h : find? m key = some e) :
    (get_or_insert m key value).1 = upsert m key { e with rc := e.rc + 1 } := by
  simp [get_or_insert, h]

theorem get_or_insert_fst_none (m : SubscriptionMap K V) (key : K) (value : V)
    (h : find? m key = none) :
    (get_or_insert m key value).1 =
      upsert m key { observable := Observable.new value, rc := 1 } := by
  simp [get_or_insert, h, SubscriptionEntry.new]

theorem nodupKeys_get_or_insert (m : SubscriptionMap K V) (key : K) (value : V)
    (h : NodupKeys m) : NodupKeys (get_or_insert m key value).1 := by
  cases hf : find? m key with
  | some e => rw [get_or_insert_fst_some m key value e hf]; exact nodupKeys_upsert m key _ h
  | none => rw [get_or_insert_fst_none m key value hf]; exact nodupKeys_upsert m key _ h

theorem rcOf_upsert_self (m : SubscriptionMap K V) (key : K) (e : SubscriptionEntry V) :
    rcOf (upsert m key e) key = e.rc := by
  simp [rcOf, find?_upsert]

theorem rcOf_upsert_ne (m : SubscriptionMap K V) (key k : K) (e : SubscriptionEntry V)
    (h : k ≠ key) : rcOf (upsert m key e) k = rcOf m k := by
  simp [rcOf, find?_upsert, h]

theorem containsKey_upsert_ne (m : SubscriptionMap K V) (key k : K) (e : SubscriptionEntry V)
    (h : k ≠ key) : containsKey (upsert m key e) k = containsKey m k := by
  simp [containsKey, find?_upsert, h]

theorem rcOf_get_or_insert_self (m : SubscriptionMap K V) (key : K) (value : V) :
    rcOf (get_or_insert m key value).1 key = rcOf m key + 1 := by
  cases hf : find? m key with
  | some e =>
    rw [get_or_insert_fst_some m key value e hf, rcOf_upsert_self]
    simp [rcOf, hf]
  | none =>
    rw [get_or_insert_fst_none m key value hf, rcOf_upsert_self]
    simp [rcOf, hf]

theorem rcOf_get_or_insert_ne (m : SubscriptionMap K V) (key k : K) (value : V)
    (h : k ≠ key) : rcOf (get_or_insert m key value).1 k = rcOf m k := by
  cases hf : find? m key with
  | some e => rw [get_or_insert_fst_some m key value e hf, rcOf_upsert_ne m key k _ h]
  | none => rw [get_or_insert_fst_none m key value hf, rcOf_upsert_ne m key k _ h]

theorem containsKey_get_or_insert_ne (m : SubscriptionMap K V) (key k : K) (value : V)
    (h : k ≠ key) : containsKey (get_or_insert m key value).1 k = containsKey m k := by
  cases hf : find? m key with
  | some e => rw [get_or_insert_fst_some m key value e hf, containsKey_upsert_ne m key k _ h]
  | none => rw [get_or_insert_fst_none m key value hf, containsKey_upsert_ne m key k _ h]

theorem dropRef_spec (m : SubscriptionMap K V) (key : K) (e : SubscriptionEntry V)
    (hnd : NodupKeys m) (hf : find? m key = some e) (hrc : 0 < e.rc) :
    NodupKeys (dropRef m key) ∧
    rcOf (dropRef m key) key = e.rc - 1 ∧
    (∀ k, k ≠ key → find? (dropRef m key) k = find? m k) ∧
    (containsKey (dropRef m key) key = true ↔ 1 < e.rc) := by
  have hnd1 : NodupKeys (upsert m key { e with rc := e.rc - 1 }) :=
    nodupKeys_upsert m key _ hnd
  by_cases hone : e.rc - 1 = 0
  · have hrc1 : e.rc = 1 := by omega
    have hnd0 : NodupKeys (upsert m key { e with rc := 0 }) := nodupKeys_upsert m key _ hnd
    have hrem : remove (upsert m key { e with rc := 0 }) key =
        RemoveResult.ok (eraseKey (upsert m key { e with rc := 0 }) key) := by
      simp [remove, find?_upsert]
    have hdrop : dropRef m key = eraseKey (upsert m key { e with rc := 0 }) key := by
      simp [dropRef, hf, hone, hrem]
    rw [hdrop]
    refine ⟨nodupKeys_eraseKey _ key hnd0, ?_, ?_, ?_⟩
    · simp [rcOf, find?_eraseKey_self _ key hnd0, hone]
    · intro k hk
      rw [find?_eraseKey_ne _ key k hk, find?_upsert, if_neg hk]
    · simp [containsKey, find?_eraseKey_self _ key hnd0, hrc1]
  · have hdrop : dropRef m key = upsert m key { e with rc := e.rc - 1 } := by
      simp [dropRef, hf, hone]
    rw [hdrop]
    refine ⟨hnd1, rcOf_upsert_self m key _, ?_, ?_⟩
    · intro k hk
      rw [find?_upsert, if_neg hk]
    · simp [containsKey, find?_upsert]
      omega

theorem publish_some_elim [DecidableEq V] (m : SubscriptionMap K V) (key : K) (v : V)
    (b : Bool) (m2 : SubscriptionMap K V) (h : publish_if_changed m key v = some (b, m2)) :
    ∃ e, find? m key = some e ∧
      m2 = upsert m key { e with observable := (e.observable.publish_if_changed v).2 } ∧
      b = (e.observable.publish_if_changed v).1 := by
  cases hf : find? m key with
  | none => simp [publish_if_changed, hf] at h
  | some e =>
    have := (by simpa [publish_if_changed, hf] using h :
      (e.observable.publish_if_changed v).1 = b ∧
        upsert m key { e with observable := (e.observable.publish_if_changed v).2 } = m2)
    exact ⟨e, rfl, this.2.symm, this.1.symm⟩

theorem modify_some_elim (m : SubscriptionMap K V) (key : K) (f : V → V)
    (m2 : SubscriptionMap K V) (h : modify_and_publish m key f = some m2) :
    ∃ e, find? m key = some e ∧
      m2 = upsert m key { e with observable := e.observable.modify f } := by
  cases hf : find? m key with
  | none => simp [modify_and_publish, hf] at h
  | some e =>
    have := (by simpa [modify_and_publish, hf] using h :
      upsert m key { e with observable := e.observable.modify f } = m2)
    exact ⟨e, rfl, this.symm⟩

theorem inv_upsert_same_rc (s : RegState K V) (key : K) (e e2 : SubscriptionEntry V)
    (hf : find? s.map key = some e) (hrc : e2.rc = e.rc) (h : Inv s) :
    Inv { map := upsert s.map key e2, handles := s.handles } := by
  obtain ⟨hnd, hcount, hpos⟩ := h
  refine ⟨nodupKeys_upsert _ key e2 hnd, ?_, ?_⟩
  · intro k
    by_cases hk : k = key
    · subst hk
      rw [show ({ map := upsert s.map k e2, handles := s.handles } : RegState K V).map =
        upsert s.map k e2 from rfl, rcOf_upsert_self, hrc]
      rw [← hcount k]
      simp [rcOf, hf]
    · simpa [rcOf_upsert_ne s.map key k e2 hk] using hcount k
  · intro k hk
    by_cases hkk : k = key
    · subst hkk
      rw [show ({ map := upsert s.map k e2, handles := s.handles } : RegState K V).map =
        upsert s.map k e2 from rfl, rcOf_upsert_self, hrc]
      have := hpos k (by simp [containsKey, hf])
      simpa [rcOf, hf] using this
    · rw [show ({ map := upsert s.map key e2, handles := s.handles } : RegState K V).map =
        upsert s.map key e2 from rfl, rcOf_upsert_ne s.map key k e2 hkk]
      exact hpos k (by rwa [show ({ map := upsert s.map key e2, handles := s.handles } :
        RegState K V).map = upsert s.map key e2 from rfl,
        containsKey_upsert_ne s.map key k e2 hkk] at hk)

theorem inv_reachable [LinearOrder K] [DecidableEq V] (s : RegState K V)
    (h : Reachable s) : Inv s := by
  induction h with
  | init =>
    refine ⟨by simp [NodupKeys, keysOf], fun k => by simp [rcOf, find?, countKey], fun k hk => ?_⟩
    simp [containsKey, find?] at hk
  | step_get s key value hr ih =>
    obtain ⟨hnd, hcount, hpos⟩ := ih
    refine ⟨nodupKeys_get_or_insert s.map key value hnd, ?_, ?_⟩
    · intro k
      by_cases hk : k = key
      · subst hk
        simp only [rcOf_get_or_insert_self, countKey]
        rw [hcount k]
        simp only [if_true]
        omega
      · simp only [countKey]
        rw [rcOf_get_or_insert_ne s.map key k value hk, hcount k]
        have : ¬ key = k := fun hc => hk (hc ▸ rfl)
        simp [this]
    · intro k hk
      by_cases hkk : k = key
      · subst hkk
        simp [rcOf_get_or_insert_self]
      · rw [show ({ map := (get_or_insert s.map key value).1, handles := key :: s.handles } :
          RegState K V).map = (get_or_insert s.map key value).1 from rfl,
          rcOf_get_or_insert_ne s.map key k value hkk]
        refine hpos k ?_
        rwa [show ({ map := (get_or_insert s.map key value).1, handles := key :: s.handles } :
          RegState K V).map = (get_or_insert s.map key value).1 from rfl,
          containsKey_get_or_insert_ne s.map key k value hkk] at hk
  | step_drop s key hr hmem ih =>
    obtain ⟨hnd, hcount, hpos⟩ := ih
    have hrcpos : 0 < rcOf s.map key := by rw [hcount key]; exact hmem
    obtain ⟨e, hf, herc⟩ : ∃ e, find? s.map key = some e ∧ e.rc = rcOf s.map key := by
      unfold rcOf at hrcpos ⊢
      cases hf : find? s.map key with
      | none => rw [hf] at hrcpos; simp at hrcpos
      | some e => exact ⟨e, rfl, rfl⟩
    have hepos : 0 < e.rc := herc ▸ hrcpos
    obtain ⟨hnd2, hself, hne, hcont⟩ := dropRef_spec s.map key e hnd hf hepos
    refine ⟨hnd2, ?_, ?_⟩
    · intro k
      by_cases hk : k = key
      · subst hk
        rw [show ({ map := dropRef s.map k, handles := removeOne s.handles k } :
          RegState K V).map = dropRef s.map k from rfl, hself,
          show ({ map := dropRef s.map k, handles := removeOne s.handles k } :
          RegState K V).handles = removeOne s.handles k from rfl,
          countKey_removeOne_self, ← hcount k, herc]
      · rw [show ({ map := dropRef s.map key, handles := removeOne s.handles key } :
          RegState K V).map = dropRef s.map key from rfl,
          show ({ map := dropRef s.map key, handles := removeOne s.handles key } :
          RegState K V).handles = removeOne s.handles key from rfl,
          countKey_removeOne_ne s.handles key k hk, ← hcount k]
        simp [rcOf, hne k hk]
    · intro k hk
      by_cases hkk : k = key
      · subst hkk
        have h1lt : 1 < e.rc := hcont.mp (by simpa using hk)
        rw [show ({ map := dropRef s.map k, handles := removeOne s.handles k } :
          RegState K V).map = dropRef s.map k from rfl, hself]
        omega
      · rw [show ({ map := dropRef s.map key, handles := removeOne s.handles key } :
          RegState K V).map = dropRef s.map key from rfl]
        have : rcOf (dropRef s.map key) k = rcOf s.map k := by simp [rcOf, hne k hkk]
        rw [this]
        refine hpos k ?_
        have hck : containsKey (dropRef s.map key) k = containsKey s.map k := by
          simp [containsKey, hne k hkk]
        rwa [show ({ map := dropRef s.map key, handles := removeOne s.handles key } :
          RegState K V).map = dropRef s.map key from rfl, hck] at hk
  | step_publish s key v b m2 hr heq ih =>
    obtain ⟨e, hf, hm2, hb⟩ := publish_some_elim s.map key v b m2 heq
    exact hm2 ▸ inv_upsert_same_rc s key e _ hf rfl ih
  | step_modify s key f m2 hr heq ih =>
    obtain ⟨e, hf, hm2⟩ := modify_some_elim s.map key f m2 heq
    exact hm2 ▸ inv_upsert_same_rc s key e _ hf rfl ih

end InvariantLemmas

section Claims

/-- C1: in every reachable registry state at rest, a key is present in the
map if and only if the entry stored under it has a live-handle counter
strictly greater than 0. The transition system `Reachable` covers every
public map-mutating operation (`get_or_insert`, `publish_if_changed`,
`modify_and_publish`, handle destruction); `Keys.next` reads the map without
producing a new one, so cursor stepping preserves the invariant by
construction. -/
theorem C1_present_iff_positive_rc [LinearOrder K] [DecidableEq K] [DecidableEq V]
    (s : RegState K V) (k : K) (h : Reachable s) :
    containsKey s.map k = true ↔ 0 < rcOf s.map k := by
  obtain ⟨hnd, hcount, hpos⟩ := inv_reachable s h
  exact ⟨hpos k, containsKey_of_rcOf_pos s.map k⟩

/-- Witness for C1 at the reachable state after one `get_or_insert`. -/
theorem C1_witness :
    containsKey (get_or_insert ([] : SubscriptionMap Nat Nat) 5 7).1 5 = true ↔
      0 < rcOf (get_or_insert ([] : SubscriptionMap Nat Nat) 5 7).1 5 :=
  C1_present_iff_positive_rc
    { map := (get_or_insert ([] : SubscriptionMap Nat Nat) 5 7).1, handles := [5] } 5
    (Reachable.step_get { map := [], handles := [] } 5 7 Reachable.init)

/-- C2: `get_or_insert` never fails (it is a total function here, as the
`anyhow::Result` of `SubscriptionRef::new` is always `Ok`): if the key is
absent it stores an entry holding the default value whose counter, initially
0, is incremented to 1; in all cases the counter rises by exactly one and the
returned handle is bound to the key and holds a fork of the entry's
observable. -/
theorem C2_get_or_insert_total [DecidableEq K] (m : SubscriptionMap K V) (key : K) (value : V) :
    (find? m key = none →
      find? (get_or_insert m key value).1 key =
        some { observable := Observable.new value, rc := 1 } ∧
      (get_or_insert m key value).2 =
        { key := key, observable := (Observable.new value).fork }) ∧
    (∀ e0, find? m key = some e0 →
      find? (get_or_insert m key value).1 key = some { e0 with rc := e0.rc + 1 } ∧
      (get_or_insert m key value).2 = { key := key, observable := e0.observable.fork }) ∧
    rcOf (get_or_insert m key value).1 key = rcOf m key + 1 := by
  refine ⟨?_, ?_, rcOf_get_or_insert_self m key value⟩
  · intro hf
    constructor
    · rw [get_or_insert_fst_none m key value hf, find?_upsert, if_pos rfl]
    · simp [get_or_insert, hf, SubscriptionEntry.new]
  · intro e0 hf
    constructor
    · rw [get_or_insert_fst_some m key value e0 hf, find?_upsert, if_pos rfl]
    · simp [get_or_insert, hf]

/-- Witness for C2: inserting into the empty map. -/
theorem C2_witness :
    find? (get_or_insert ([] : SubscriptionMap Nat Nat) 3 9).1 3 =
        some { observable := Observable.new 9, rc := 1 } ∧
      (get_or_insert ([] : SubscriptionMap Nat Nat) 3 9).2 =
        { key := 3, observable := (Observable.new 9).fork } :=
  (C2_get_or_insert_total [] 3 9).1 rfl

/-- C3: handle destruction decrements the bound entry's counter exactly once;
when the counter reaches zero the key is gone from the map as soon as
destruction returns, when it stays positive the entry remains, and when the
bound key is already absent destruction returns the map unchanged (the code
path logs the error instead of panicking). Other keys are untouched. -/
theorem C3_drop_handle [DecidableEq K] (m : SubscriptionMap K V) (key : K)
    (hnd : NodupKeys m) :
    (find? m key = none → dropRef m key = m) ∧
    (∀ e, find? m key = some e → 0 < e.rc →
      rcOf (dropRef m key) key = e.rc - 1 ∧
      (containsKey (dropRef m key) key = true ↔ 1 < e.rc) ∧
      (∀ k, k ≠ key → find? (dropRef m key) k = find? m k)) := by
  constructor
  · intro hf
    simp [dropRef, hf]
  · intro e hf hrc
    obtain ⟨h1, h2, h3, h4⟩ := dropRef_spec m key e hnd hf hrc
    exact ⟨h2, h4, h3⟩

/-- Witness for C3: dropping the last handle of a one-entry map evicts it. -/
theorem C3_witness :
    rcOf (dropRef exMapRc1 1) 1 =
        ({ observable := { value := 5, log := [] }, rc := 1 } : SubscriptionEntry Nat).rc - 1 ∧
      (containsKey (dropRef exMapRc1 1) 1 = true ↔
        1 < ({ observable := { value := 5, log := [] }, rc := 1 } : SubscriptionEntry Nat).rc) :=
  ⟨((C3_drop_handle exMapRc1 1 (by simp [NodupKeys, keysOf, exMapRc1])).2
      { observable := { value := 5, log := [] }, rc := 1 } rfl (by decide)).1,
   ((C3_drop_handle exMapRc1 1 (by simp [NodupKeys, keysOf, exMapRc1])).2
      { observable := { value := 5, log := [] }, rc := 1 } rfl (by decide)).2.1⟩

/-- C4: in every reachable state at rest, each entry's live-handle counter
equals exactly the number of outstanding handles for its key (`countKey` over
the multiset of keys of issued, not yet destroyed handles): `get_or_insert`
increments it exactly once per handle and each destruction decrements it
exactly once. -/
theorem C4_rc_counts_handles [LinearOrder K] [DecidableEq K] [DecidableEq V]
    (s : RegState K V) (k : K) (h : Reachable s) :
    rcOf s.map k = countKey s.handles k :=
  (inv_reachable s h).2.1 k

/-- Witness for C4 after two `get_or_insert` calls on the same key. -/
theorem C4_witness :
    rcOf (get_or_insert (get_or_insert ([] : SubscriptionMap Nat Nat) 1 1).1 1 1).1 1 =
      countKey [1, 1] 1 :=
  C4_rc_counts_handles
    { map := (get_or_insert (get_or_insert ([] : SubscriptionMap Nat Nat) 1 1).1 1 1).1,
      handles := [1, 1] } 1
    (Reachable.step_get
      { map := (get_or_insert ([] : SubscriptionMap Nat Nat) 1 1).1, handles := [1] } 1 1
      (Reachable.step_get { map := [], handles := [] } 1 1 Reachable.init))

/-- C5: `remove` returns the recoverable not-found error when the key is
absent; when the key is present with a non-zero counter it hits the fatal
`assert!` (modelled as `panicked`, never a silent success and never a
deletion); when the key is present with counter 0 it deletes the entry and
succeeds, leaving the other keys untouched. -/
theorem C5_remove_trichotomy [DecidableEq K] (m : SubscriptionMap K V) (key : K)
    (hnd : NodupKeys m) :
    (find? m key = none → remove m key = RemoveResult.notFound) ∧
    (∀ e, find? m key = some e → e.rc ≠ 0 → remove m key = RemoveResult.panicked) ∧
    (∀ e, find? m key = some e → e.rc = 0 →
      remove m key = RemoveResult.ok (eraseKey m key) ∧
      find? (eraseKey m key) key = none ∧
      ∀ k, k ≠ key → find? (eraseKey m key) k = find? m k) := by
  refine ⟨?_, ?_, ?_⟩
  · intro hf
    simp [remove, hf]
  · intro e hf hrc
    simp [remove, hf, hrc]
  · intro e hf hrc
    refine ⟨by simp [remove, hf, hrc], find?_eraseKey_self m key hnd, ?_⟩
    intro k hk
    exact find?_eraseKey_ne m key k hk

/-- Witness for C5: removing a present entry whose counter is 0 succeeds and
deletes it. -/
theorem C5_witness :
    remove exMapRc0 2 = RemoveResult.ok (eraseKey exMapRc0 2) ∧
      find? (eraseKey exMapRc0 2) 2 = none :=
  ⟨((C5_remove_trichotomy exMapRc0 2 (by simp [NodupKeys, keysOf, exMapRc0])).2.2
      { observable := Observable.new 5, rc := 0 } rfl rfl).1,
   ((C5_remove_trichotomy exMapRc0 2 (by simp [NodupKeys, keysOf, exMapRc0])).2.2
      { observable := Observable.new 5, rc := 0 } rfl rfl).2.1⟩

/-- C6: one step of the key cursor yields nothing when the cursor is already
exhausted (and leaves it exhausted: stickiness); otherwise it yields the
smallest key of the map strictly greater than the last-seen key (smallest
overall when none has been seen), records it as last-seen with the cursor
still live, and marks the cursor exhausted when no such key exists; and the
spec's scenario holds: over keys {0,1,2} the cursor yields 0, 1, 2 and then
keeps reporting exhaustion even after key 10 is inserted. -/
theorem C6_key_cursor [LinearOrder K] (c : Keys K) (m : SubscriptionMap K V) :
    (c.done = true → Keys.next c m = (none, c)) ∧
    (∀ k, (Keys.next c m).1 = some k →
      k ∈ keysOf m ∧ keyAfter c.previous k = true ∧
      (∀ k2 ∈ keysOf m, keyAfter c.previous k2 = true → k ≤ k2) ∧
      (Keys.next c m).2 = { previous := some k, done := false }) ∧
    (c.done = false → (Keys.next c m).1 = none →
      (Keys.next c m).2.done = true ∧
      ∀ k2 ∈ keysOf m, keyAfter c.previous k2 = false) ∧
    stepsYield (Keys.start : Keys Nat) [map012, map012, map012, map012, map012x] =
      [0, 1, 2] := by
  refine ⟨fun h => next_of_done c m h, ?_, ?_, by rfl⟩
  · intro k hk
    rcases hstep : Keys.next c m with ⟨r, c2⟩
    rw [hstep] at hk
    simp at hk
    subst hk
    obtain ⟨hd, hmin, hc2⟩ := next_some c m k c2 hstep
    obtain ⟨hmem, hafter⟩ := minKeyAbove_mem m c.previous k hmin
    exact ⟨hmem, hafter, minKeyAbove_le m c.previous k hmin, hc2⟩
  · intro hd hnone
    have hmin : minKeyAbove m c.previous = none := by
      simpa [Keys.next, hd] using hnone
    exact ⟨by simp [Keys.next, hd, hmin], minKeyAbove_eq_none m c.previous hmin⟩

/-- Witness for C6: a step of an exhausted cursor. -/
theorem C6_witness :
    Keys.next ({ previous := none, done := true } : Keys Nat) map012 =
      (none, { previous := none, done := true }) :=
  (C6_key_cursor { previous := none, done := true } map012).1 rfl

/-- C7: `publish_if_changed` fails with the recoverable not-found error if and
only if the key is absent; when present it returns `false` with no state
change and no notification if the given value equals the current one, and
returns `true` storing the value and appending it to the notification log if
it differs. -/
theorem C7_publish_if_changed [DecidableEq K] [DecidableEq V] (m : SubscriptionMap K V)
    (key : K) (v : V) :
    (publish_if_changed m key v = none ↔ find? m key = none) ∧
    (∀ e, find? m key = some e →
      (v = e.observable.value → publish_if_changed m key v = some (false, m)) ∧
      (v ≠ e.observable.value →
        publish_if_changed m key v = some (true,
          upsert m key { e with observable := { value := v, log := v :: e.observable.log } }) ∧
        find? (upsert m key
            { e with observable := { value := v, log := v :: e.observable.log } }) key =
          some { e with observable := { value := v, log := v :: e.observable.log } })) := by
  refine ⟨?_, ?_⟩
  · constructor
    · intro h
      cases hf : find? m key with
      | none => rfl
      | some e => simp [publish_if_changed, hf] at h
    · intro hf
      simp [publish_if_changed, hf]
  · intro e hf
    constructor
    · intro hveq
      have : upsert m key { e with observable := e.observable } = m := upsert_self m key e hf
      simp [publish_if_changed, hf, Observable.publish_if_changed, hveq, this]
    · intro hvne
      refine ⟨by simp [publish_if_changed, hf, Observable.publish_if_changed, hvne], ?_⟩
      rw [find?_upsert, if_pos rfl]

/-- Witness for C7: publishing the unchanged value is a no-op returning
`false`. -/
theorem C7_witness :
    publish_if_changed exMapRc1 1 5 = some (false, exMapRc1) :=
  ((C7_publish_if_changed exMapRc1 1 5).2
    { observable := { value := 5, log := [] }, rc := 1 } rfl).1 rfl

/-- C8: `modify_and_publish` fails with the recoverable not-found error if
and only if the key is absent; when present it applies the mutator in place
to the current value and always publishes the result (the notification log
grows unconditionally, with no equality check), leaving all other keys
untouched. -/
theorem C8_modify_and_publish [DecidableEq K] (m : SubscriptionMap K V) (key : K)
    (f : V → V) :
    (modify_and_publish m key f = none ↔ find? m key = none) ∧
    (∀ e, find? m key = some e →
      modify_and_publish m key f =
        some (upsert m key { e with observable := e.observable.modify f }) ∧
      find? (upsert m key { e with observable := e.observable.modify f }) key =
        some { observable := { value := f e.observable.value,
                               log := f e.observable.value :: e.observable.log },
               rc := e.rc } ∧
      ∀ k, k ≠ key →
        find? (upsert m key { e with observable := e.observable.modify f }) k = find? m k) := by
  refine ⟨?_, ?_⟩
  · constructor
    · intro h
      cases hf : find? m key with
      | none => rfl
      | some e => simp [modify_and_publish, hf] at h
    · intro hf
      simp [modify_and_publish, hf]
  · intro e hf
    refine ⟨by simp [modify_and_publish, hf], ?_, ?_⟩
    · rw [find?_upsert, if_pos rfl]
      rfl
    · intro k hk
      rw [find?_upsert, if_neg hk]

/-- Witness for C8: an identity-preserving mutator still publishes (the log
grows even though the value is unchanged in spirit; here `fun x => x + 1`
maps 5 to 6 and logs 6). -/
theorem C8_witness :
    find? (upsert exMapRc1 1
        { observable := Observable.modify { value := 5, log := [] } (fun x => x + 1),
          rc := 1 }) 1 =
      some { observable := { value := 6, log := [6] }, rc := 1 } :=
  ((C8_modify_and_publish exMapRc1 1 (fun x => x + 1)).2
    { observable := { value := 5, log := [] }, rc := 1 } rfl).2.1

/-- C9: calling `get_or_insert` on a key that already has an entry leaves the
stored observable untouched (the passed default value is discarded) and only
bumps the counter; entries under other keys are untouched; the returned
handle forks the existing observable. -/
theorem C9_default_discarded [DecidableEq K] (m : SubscriptionMap K V) (key : K)
    (value : V) (e : SubscriptionEntry V) (h : find? m key = some e) :
    find? (get_or_insert m key value).1 key = some { e with rc := e.rc + 1 } ∧
    (∀ k, k ≠ key → find? (get_or_insert m key value).1 k = find? m k) ∧
    (get_or_insert m key value).2.observable = e.observable.fork := by
  refine ⟨?_, ?_, ?_⟩
  · rw [get_or_insert_fst_some m key value e h, find?_upsert, if_pos rfl]
  · intro k hk
    rw [get_or_insert_fst_some m key value e h, find?_upsert, if_neg hk]
  · simp [get_or_insert, h]

/-- Witness for C9: re-requesting key 1 with default 99 keeps the stored
value 5 and bumps the counter to 2. -/
theorem C9_witness :
    find? (get_or_insert exMapRc1 1 99).1 1 =
      some { observable := { value := 5, log := [] }, rc := 2 } :=
  (C9_default_discarded exMapRc1 1 99
    { observable := { value := 5, log := [] }, rc := 1 } rfl).1

/-- C10: the keys yielded by a cursor over any sequence of map states form a
strictly increasing sequence, hence each key is yielded at most once, and
once the cursor has yielded `p` no later step yields a key at or below `p`,
regardless of what is inserted into the map between steps. -/
theorem C10_strictly_increasing [LinearOrder K] (c : Keys K)
    (ms : List (SubscriptionMap K V)) :
    List.Pairwise (fun a b => a < b) (stepsYield c ms) ∧
    (stepsYield c ms).Nodup ∧
    (∀ p, c.previous = some p → ∀ x ∈ stepsYield c ms, p < x) := by
  refine ⟨stepsYield_sorted ms c, ?_, fun p hp x hx => stepsYield_gt ms c p hp x hx⟩
  exact List.Pairwise.imp (fun h => ne_of_lt h) (stepsYield_sorted ms c)

/-- Witness for C10: a cursor that has seen key 0, stepped over maps that
contain keys at and below its position, yields a strictly increasing
sequence. -/
theorem C10_witness :
    List.Pairwise (fun a b => a < b)
      (stepsYield ({ previous := some 0, done := false } : Keys Nat) [map012x, map012x]) :=
  (C10_strictly_increasing { previous := some 0, done := false } [map012x, map012x]).1

end Claims

end SubMap
